import Mathlib

/-!
# Verification of the hierarchical tensor basis of G+Smo (`gsHTensorBasis`)

Shallow embedding of `src/gsHSplines/gsHTensorBasis.hpp`.  The spatial
partition tree (`gsHDomain`), the per-level knot vectors
(`gsKnotVector`) and the numerical knot-insertion kernels are not part
of the provided sources; where an operation of those classes is needed
it is modelled from the specification and marked as such in its doc
comment.  Everything else is translated from the C++ source.
-/

/-- Modelled from the spec: the per-direction data of one level's knot
vector (`gsKnotVector` is not under `src/`).  `uKnots` is the list of
unique knot values of the direction, `suppLow`/`suppUpp` give, for each
univariate basis function, the lower and upper unique-knot index of its
support (`curr.uIndex()` and `(curr+m_deg+1).uIndex()` in
`set_activ1`). -/
structure DirInfo where
  uKnots : List ℚ
  suppLow : List ℕ
  suppUpp : List ℕ
deriving DecidableEq

/-- Number of univariate basis functions of the direction. -/
def DirInfo.numF (dI : DirInfo) : ℕ := dI.suppLow.length

/-- One level's tensor-product basis, reduced to the data that the
hierarchical algorithms inspect: the per-direction knot data. -/
structure TBI where
  dirs : List DirInfo
deriving DecidableEq

instance : Inhabited DirInfo := ⟨⟨[], [], []⟩⟩

instance : Inhabited TBI := ⟨⟨[]⟩⟩

/-- Total number of tensor basis functions (product of direction sizes). -/
def tensorSize (tb : TBI) : ℕ := (tb.dirs.map (fun dI => dI.numF)).prod

/-- Decode a flat tensor index into the multi-index (first direction
fastest, as in `gsTensorBasis::index` with `stride(0) = 1`). -/
def tensorMulti : List DirInfo → ℕ → List ℕ
  | [], _ => []
  | dI :: ds, k => (k % dI.numF) :: tensorMulti ds (k / dI.numF)

/-- Lower support corner of the function with flat index `k`,
in unique-knot (level) index units. -/
def suppLows : List DirInfo → ℕ → List ℕ
  | [], _ => []
  | dI :: ds, k => dI.suppLow.getD (k % dI.numF) 0 :: suppLows ds (k / dI.numF)

/-- Upper support corner of the function with flat index `k`. -/
def suppUpps : List DirInfo → ℕ → List ℕ
  | [], _ => []
  | dI :: ds, k => dI.suppUpp.getD (k % dI.numF) 0 :: suppUpps ds (k / dI.numF)

/-- Modelled from the spec (§3, §4.1): the spatial partition tree
(`gsHDomain` is not under `src/`).  The level assignment over index
space is represented as an overlay of inserted boxes: the level of a
point is the maximum level of all inserted boxes containing it (`0`
where no box covers it).  `insertBox` never coarsens, matching the spec
("never coarsens below `level` elsewhere").  Box coordinates are stored
in level-`unit` index units; coordinates at level `L` are obtained by
doubling per refinement step. -/
structure HDomain where
  unit : ℕ
  domUpp : List ℕ
  boxes : List (List ℕ × List ℕ × ℕ)
  maxIns : ℕ
deriving DecidableEq

/-- Componentwise `lo ≤ c < hi` (false on dimension mismatch). -/
def cellInBox : List ℕ → List ℕ → List ℕ → Bool
  | [], [], [] => true
  | l :: ls, u :: us, c :: cs => (decide (l ≤ c) && decide (c < u)) && cellInBox ls us cs
  | _, _, _ => false

/-- Componentwise strict order of two corners (false on mismatch). -/
def allLt : List ℕ → List ℕ → Bool
  | [], [] => true
  | a :: as, b :: bs => decide (a < b) && allLt as bs
  | _, _ => false

/-- All unit cells (by lower corner) of the axis-aligned box `[lo, hi)`. -/
def cellsIn : List ℕ → List ℕ → List (List ℕ)
  | a :: as, b :: bs => (List.range' a (b - a)).flatMap (fun x => (cellsIn as bs).map (fun c => x :: c))
  | _, _ => [[]]

/-- Modelled from the spec: level of the unit cell with lower corner `c`,
granularity `g ≥ unit`; the maximum level over all inserted boxes
containing the cell, `0` otherwise. -/
def HDomain.effLevel (t : HDomain) (g : ℕ) (c : List ℕ) : ℕ :=
  ((t.boxes.filter (fun b =>
      cellInBox (b.1.map (fun x => x * 2 ^ (g - t.unit)))
                (b.2.1.map (fun x => x * 2 ^ (g - t.unit))) c)).map
    (fun b => b.2.2)).foldr max 0

/-- Modelled from the spec (§4.1 `query`): for a box given in level-`lvl`
index units, the tightest level dominating the box — the minimum of the
cell levels over the box. -/
def HDomain.query3 (t : HDomain) (k1 k2 : List ℕ) (lvl : ℕ) : ℕ :=
  let g := max t.unit lvl
  let s := 2 ^ (g - lvl)
  let k1s := k1.map (fun x => x * s)
  let k2s := k2.map (fun x => x * s)
  ((cellsIn k1s k2s).map (t.effLevel g)).foldr min (t.effLevel g k1s)

/-- Modelled from the spec: insert a box with assigned level `lvl`, the
box corners being given in level-`cLvl` index units.  Existing boxes are
rescaled to the common granularity; `maxIns` records the highest level
ever assigned. -/
def HDomain.insertBoxAt (t : HDomain) (k1 k2 : List ℕ) (lvl cLvl : ℕ) : HDomain :=
  let g := max t.unit cLvl
  let so := 2 ^ (g - t.unit)
  let sn := 2 ^ (g - cLvl)
  { unit := g
    domUpp := t.domUpp.map (fun x => x * so)
    boxes := t.boxes.map (fun b => (b.1.map (fun x => x * so), b.2.1.map (fun x => x * so), b.2.2))
             ++ [(k1.map (fun x => x * sn), k2.map (fun x => x * sn), lvl)]
    maxIns := max t.maxIns lvl }

/-- Modelled from the spec (§4.1 `insertBox`): corners in level-`lvl` units. -/
def HDomain.insertBox (t : HDomain) (k1 k2 : List ℕ) (lvl : ℕ) : HDomain :=
  t.insertBoxAt k1 k2 lvl lvl

/-- Modelled from the spec (§4.4): `sinkBox` determines the current level
`L` dominating the box and inserts the box at level `L + 1`. -/
def HDomain.sinkBox (t : HDomain) (k1 k2 : List ℕ) (fLevel : ℕ) : HDomain :=
  t.insertBoxAt k1 k2 (t.query3 k1 k2 fLevel + 1) fLevel

/-- Modelled from the spec (§4.3 step 2): tree compression is a
housekeeping pass, "not observable externally". -/
def HDomain.makeCompressed (t : HDomain) : HDomain := t

/-- Modelled from the spec (§4.1): doubles every coordinate in the tree
(re-bases index space after a uniform refinement at level 0). -/
def HDomain.multiplyByTwo (t : HDomain) : HDomain :=
  { t with unit := t.unit + 1
           domUpp := t.domUpp.map (fun x => 2 * x)
           boxes := t.boxes.map (fun b => (b.1.map (fun x => 2 * x), b.2.1.map (fun x => 2 * x), b.2.2)) }

/-- Modelled from the spec: dropping the coarsest level during
compression shifts every level assignment down by one. -/
def HDomain.decrementLevel (t : HDomain) : HDomain :=
  { t with unit := t.unit - 1
           maxIns := t.maxIns - 1
           boxes := t.boxes.map (fun b => (b.1, b.2.1, b.2.2 - 1)) }

/-- Modelled from the spec: initial tree, whole domain at level 0. -/
def HDomain.init (upp : List ℕ) : HDomain :=
  { unit := 0, domUpp := upp, boxes := [], maxIns := 0 }

/-- Well-formedness: every inserted box's level is bounded by the highest
level ever inserted (spec §4.1: `getMaxInsertedLevel` is the "highest
level ever assigned to any leaf"). -/
def HDomain.WF (t : HDomain) : Prop := ∀ b ∈ t.boxes, b.2.2 ≤ t.maxIns

instance (t : HDomain) : Decidable t.WF := List.decidableBAll _ t.boxes

/-- The hierarchical tensor basis state: the partition tree, the
per-level tensor bases `m_bases`, the characteristic matrices
`m_xmatrix`, the offset table `m_xmatrix_offset`, and (modelled from the
spec, `gsTensorBSplineBasis::uniformRefine` is not under `src/`) the
dyadic refinement step used by `needLevel` to clone-and-refine the
finest basis. -/
structure HTB where
  tree : HDomain
  bases : List TBI
  xmatrix : List (List ℕ)
  offset : List ℕ
  refineStep : TBI → TBI

/-- Append `k` clone-and-refine steps of the last basis
(the loop body of `needLevel`). -/
def appendRefined (rs : TBI → TBI) (bs : List TBI) : ℕ → List TBI
  | 0 => bs
  | k + 1 => appendRefined rs (bs ++ [rs (bs.getLastD default)]) k

/-- `gsHTensorBasis::needLevel`: make sure bases for levels
`0 .. maxLevel` exist, extending by dyadic refinement of the last
basis (`extraLevels = maxLevel + 1 - m_bases.size()`). -/
def needLevel (B : HTB) (maxLevel : ℕ) : HTB :=
  { B with bases := appendRefined B.refineStep B.bases (maxLevel + 1 - B.bases.length) }

/-- `gsHTensorBasis::set_activ1`: the characteristic matrix of `level`.
If the level exceeds the maximal inserted level nothing is active;
otherwise a function is pushed iff `query3` of its support box equals
the level exactly, and the matrix is sorted.  Since every flat index in
`0 .. tensorSize - 1` is visited exactly once and the result is sorted,
this equals the order-preserving filter of the index range. -/
def set_activ1 (t : HDomain) (tb : TBI) (level : ℕ) : List ℕ :=
  if t.maxIns < level then []
  else (List.range (tensorSize tb)).filter
    (fun k => t.query3 (suppLows tb.dirs k) (suppUpps tb.dirs k) level == level)

/-- The offset-table recursion of `update_structure`: starting value
`acc`, then one entry `acc + size` per characteristic matrix. -/
def offsetsFrom (acc : ℕ) : List (List ℕ) → List ℕ
  | [] => [acc]
  | m :: ms => acc :: offsetsFrom (acc + m.length) ms

/-- `m_xmatrix_offset` recomputation: prefix sums of the per-level
active-set sizes, starting from `0`. -/
def offsetsOf (xm : List (List ℕ)) : List ℕ := offsetsFrom 0 xm

/-- `gsHTensorBasis::update_structure`: ensure enough levels, compress
the tree, rebuild every characteristic matrix via `set_activ1`, and
recompute the offset table. -/
def update_structure (B : HTB) : HTB :=
  let B1 := needLevel B B.tree.maxIns
  let t := B1.tree.makeCompressed
  let xm := (List.range B1.bases.length).map
    (fun i => set_activ1 t (B1.bases.getD i default) i)
  { B1 with tree := t, xmatrix := xm, offset := offsetsOf xm }

/-- `gsHTensorBasis::size`: the last entry of the offset table. -/
def size (B : HTB) : ℕ := B.offset.getLastD 0

/-- The front-trimming loop of `gsHTensorBasis::makeCompressed`: while
`m_xmatrix_offset[1]` is zero, erase the front of `m_bases`,
`m_xmatrix` and `m_xmatrix_offset` and decrement the tree level. -/
def compressFront : HDomain → List TBI → List (List ℕ) → List ℕ →
    HDomain × List TBI × List (List ℕ) × List ℕ
  | t, bs, xm, o0 :: o1 :: os =>
    if o1 = 0 then compressFront t.decrementLevel bs.tail xm.tail (o1 :: os)
    else (t, bs, xm, o0 :: o1 :: os)
  | t, bs, xm, off => (t, bs, xm, off)

/-- `gsHTensorBasis::makeCompressed`. -/
def makeCompressed (B : HTB) : HTB :=
  { tree := (compressFront B.tree B.bases B.xmatrix B.offset).1
    bases := (compressFront B.tree B.bases B.xmatrix B.offset).2.1
    xmatrix := (compressFront B.tree B.bases B.xmatrix B.offset).2.2.1
    offset := (compressFront B.tree B.bases B.xmatrix B.offset).2.2.2
    refineStep := B.refineStep }

/-- `std::lower_bound` on a sorted list: index of the first element not
less than `x`. -/
def lowerBoundIdx (l : List ℕ) (x : ℕ) : ℕ :=
  match l with
  | [] => 0
  | a :: t => if a < x then lowerBoundIdx t x + 1 else 0

/-- `gsHTensorBasis::flatTensorIndexToHierachicalIndex`: returns `-1`
when the level is out of range or the flat index is not active at the
level; otherwise the level offset plus the position of the index in the
sorted characteristic matrix. -/
def flatTensorIndexToHierachicalIndex (B : HTB) (index : ℕ) (level : ℕ) : ℤ :=
  if B.xmatrix.length ≤ level then -1
  else
    let m := B.xmatrix.getD level []
    let i := lowerBoundIdx m index
    if i < m.length then
      if m.getD i 0 = index then (B.offset.getD level 0 : ℤ) + i else -1
    else -1

/-- The two-pointer merge of
`gsHTensorBasis::flatTensorIndexesToHierachicalIndexes`:
`off` is `m_xmatrix_offset[level]`, `idx` the running position in the
characteristic matrix. -/
def hierWalk (off : ℕ) : List ℤ → List ℕ → ℕ → List ℤ
  | [], _, _ => []
  | i :: is, [], idx => -1 :: hierWalk off is [] idx
  | i :: is, x :: xs, idx =>
    if i < (x : ℤ) then -1 :: hierWalk off is (x :: xs) idx
    else if i = (x : ℤ) then ((off : ℤ) + idx) :: hierWalk off is xs (idx + 1)
    else hierWalk off (i :: is) xs (idx + 1)
termination_by is xs _ => is.length + xs.length

/-- `gsHTensorBasis::flatTensorIndexesToHierachicalIndexes`: the batch
form guards the level with `GISMO_ASSERT(level < m_xmatrix.size())`
(modelled as `none`), then rewrites each sorted input index to its
hierarchical index or `-1`. -/
def flatTensorIndexesToHierachicalIndexes (B : HTB) (indexes : List ℤ) (level : ℕ) :
    Option (List ℤ) :=
  if level < B.xmatrix.length then
    some (hierWalk (B.offset.getD level 0) indexes (B.xmatrix.getD level []) 0)
  else none

/-- The push loop of `transfer`/`transfer2`: "Add missing empty char.
matrices" — `while (old.size() >= m_xmatrix.size()) m_xmatrix.push_back(empty)`. -/
def pushEmpties (xm : List (List ℕ)) (oldLen : ℕ) : List (List ℕ) :=
  xm ++ List.replicate (oldLen + 1 - xm.length) []

/-- The pop loop of `transfer`:
`while (m_xmatrix.back().size() == 0) m_xmatrix.pop_back()`. -/
def dropTrailingEmpties (xs : List (List ℕ)) : List (List ℕ) :=
  (xs.reverse.dropWhile (fun m => m.isEmpty)).reverse

/-- The state mutation of `gsHTensorBasis::transfer`: ensure levels for
`old.size()`, add missing empty characteristic matrices, then drop the
trailing empty characteristic matrices and erase the correspondingly
unused finest bases (`m_bases.resize(m_xmatrix.size())`).  The sparse
result matrix itself is produced by the knot-insertion kernels and
`coarsening_direct`, which are not under `src/` and do not mutate the
state (they take `old` and `m_xmatrix` by const reference); it is
therefore not modelled here. -/
def transfer (B : HTB) (old : List (List ℕ)) : HTB :=
  let B1 := needLevel B old.length
  let xm1 := pushEmpties B1.xmatrix old.length
  let xm2 := dropTrailingEmpties xm1
  let bs := if xm2.length < B1.bases.length then B1.bases.take xm2.length else B1.bases
  { B1 with bases := bs, xmatrix := xm2 }

/-- The state mutation of `gsHTensorBasis::transfer2`: ensure levels,
add missing empty characteristic matrices — and nothing else: unlike
`transfer`, no trailing level is pruned and `m_bases` is not resized
(the result matrix of `coarsening_direct2` is external and does not
mutate the state). -/
def transfer2 (B : HTB) (old : List (List ℕ)) : HTB :=
  let B1 := needLevel B old.length
  { B1 with xmatrix := pushEmpties B1.xmatrix old.length }

/-- The per-direction knot-index pair of a parametric box in
`gsHTensorBasis::refine(boxes)`: `k1` from
`upper_bound(domainUBegin, domainUEnd, lo) - 1` and `k2` from
`upper_bound(domainUBegin, domainUEnd + 1, hi) - 1`, both as unique-knot
indices of the finest basis (the `upper_bound` position is the number of
unique knots `≤ x` in the searched range). -/
def rawCorner1 (uk : List ℚ) (x y : ℚ) : ℕ × ℕ :=
  ((uk.dropLast.countP (fun u => decide (u ≤ x))) - 1,
   (uk.countP (fun u => decide (u ≤ y))) - 1)

/-- The corner computation of one direction in `refine(boxes)` including
the degenerate-box fix: `if (k1[j] == k2[j]) { if (0 != k1[j]) --k1[j];
++k2[j]; }` (natural subtraction makes the guarded decrement `k1 - 1`). -/
def refineCorner1 (uk : List ℚ) (x y : ℚ) : ℕ × ℕ :=
  let r := rawCorner1 uk x y
  if r.1 = r.2 then (r.1 - 1, r.2 + 1) else r

/-- The corner loop of `refine(boxes)` over all directions. -/
def refineCorners : List DirInfo → List ℚ → List ℚ → List ℕ × List ℕ
  | dI :: ds, x :: xs, y :: ys =>
    let p := refineCorner1 dI.uKnots x y
    let r := refineCorners ds xs ys
    (p.1 :: r.1, p.2 :: r.2)
  | _, _, _ => ([], [])

/-- One iteration of the box loop of `gsHTensorBasis::refine(boxes)`:
convert the parametric corners to knot indices of the finest basis
(`fLevel = m_bases.size() - 1`), expand degenerate directions, sink the
box, and make sure there are enough levels. -/
def refineOne (B : HTB) (box : List ℚ × List ℚ) : HTB :=
  let fLevel := B.bases.length - 1
  let tb := B.bases.getLastD default
  let p := refineCorners tb.dirs box.1 box.2
  let t1 := B.tree.sinkBox p.1 p.2 fLevel
  needLevel { B with tree := t1 } t1.maxIns

/-- `gsHTensorBasis::refine(gsMatrix boxes)`: sink every box, then
rebuild the structure. -/
def refine (B : HTB) (boxes : List (List ℚ × List ℚ)) : HTB :=
  update_structure (boxes.foldl refineOne B)

/-- `gsHTensorBasis::uniformRefine(numKnots, mul)`: asserts
`numKnots == 1` and `getMaxInsLevel() < m_bases.size()` (both modelled
as `none`); then deletes the coarsest basis, appends a dyadically
refined clone of the finest one (`uniformRefine(1, mul)` of the clone is
the spec-modelled `refineStep`; `mul` only affects knot multiplicities
inside that external tensor-basis code), doubles every coordinate in the
tree and rebuilds the structure. -/
def uniformRefine (B : HTB) (numKnots mul : ℤ) : Option HTB :=
  if numKnots ≠ 1 then none
  else if B.bases.length ≤ B.tree.maxIns then none
  else
    let bs := B.bases.drop 1
    some (update_structure
      { B with bases := bs ++ [B.refineStep (bs.getLastD default)]
               tree := B.tree.multiplyByTwo })

/-- `gsHTensorBasis::initialize_class`: store the initial tensor basis,
initialise the tree over its unique-knot grid
(`upp[i] = knots(i).uSize() - 1`), and produce two further levels by
dyadic refinement. -/
def initialize_class (tb : TBI) (rs : TBI → TBI) : HTB :=
  { tree := HDomain.init (tb.dirs.map (fun dI => dI.uKnots.length - 1))
    bases := [tb, rs tb, rs (rs tb)]
    xmatrix := []
    offset := []
    refineStep := rs }

/-- Modelled from the spec (§3 Lifecycle): the `gsHTensorBasis`
constructor (declared in `gsHTensorBasis.h`, not under `src/`) runs
`initialize_class` and then `update_structure`, so that tree, bases and
active sets "are created together at construction". -/
def construct (tb : TBI) (rs : TBI → TBI) : HTB :=
  update_structure (initialize_class tb rs)

/-! ## Concrete instances used by the witnesses and counterexamples -/

/-- A univariate degree-1 direction on knots `0, 1, 2` (knot values are
integer-valued rationals so that witnesses evaluate by `decide`; only
their order matters): three functions with supports `[0,1)`, `[0,2)`,
`[1,2)` in unique-knot units. -/
def dirA : DirInfo :=
  { uKnots := [0, 1, 2], suppLow := [0, 0, 1], suppUpp := [1, 2, 2] }

/-- A one-direction tensor basis over `dirA`. -/
def tbA : TBI := ⟨[dirA]⟩

/-- The refined version of `dirA` (one dyadic step, knot values again
rescaled to integers): five unique knots, five functions. -/
def dirA2 : DirInfo :=
  { uKnots := [0, 1, 2, 3, 4]
    suppLow := [0, 0, 1, 2, 3]
    suppUpp := [1, 2, 3, 4, 4] }

/-- Spec-modelled dyadic refinement step used by the example states. -/
def rsA (tb : TBI) : TBI :=
  if tb = tbA then ⟨[dirA2]⟩ else tb

/-- Example hierarchical basis: fresh 1D basis over `tbA`. -/
def exA : HTB := construct tbA rsA

/-- Example with an empty coarsest level: used against `makeCompressed`. -/
def exFrontEmpty : HTB :=
  { tree := HDomain.init [2]
    bases := [tbA, ⟨[dirA2]⟩]
    xmatrix := [[], [5]]
    offset := [0, 0, 1]
    refineStep := rsA }

/-- Example with an empty finest level: used against `makeCompressed`
and `transfer2`. -/
def exTailEmpty : HTB :=
  { tree := HDomain.init [2]
    bases := [tbA, ⟨[dirA2]⟩]
    xmatrix := [[1], []]
    offset := [0, 1, 1]
    refineStep := rsA }

/-! ## Helper lemmas -/

lemma getD_range_map {α : Type} (f : ℕ → α) (d : α) {n i : ℕ} (h : i < n) :
    ((List.range n).map f).getD i d = f i := by
  rw [List.getD_eq_getElem?_getD, List.getElem?_map, List.getElem?_range h]
  rfl

lemma length_range_map {α : Type} (f : ℕ → α) (n : ℕ) :
    ((List.range n).map f).length = n := by
  rw [List.length_map, List.length_range]

lemma offsetsFrom_length (a : ℕ) (xs : List (List ℕ)) :
    (offsetsFrom a xs).length = xs.length + 1 := by
  induction xs generalizing a with
  | nil => rfl
  | cons m ms ih => simp [offsetsFrom, ih]

lemma offsetsFrom_ne_nil (a : ℕ) (xs : List (List ℕ)) : offsetsFrom a xs ≠ [] := by
  cases xs <;> simp [offsetsFrom]

lemma offsetsFrom_getD_zero (a : ℕ) (xs : List (List ℕ)) :
    (offsetsFrom a xs).getD 0 0 = a := by
  cases xs <;> rfl

lemma offsetsFrom_getD_succ (a : ℕ) (xs : List (List ℕ)) {i : ℕ} (h : i < xs.length) :
    (offsetsFrom a xs).getD (i + 1) 0
      = (offsetsFrom a xs).getD i 0 + (xs.getD i []).length := by
  induction xs generalizing a i with
  | nil => cases h
  | cons m ms ih =>
    cases i with
    | zero =>
      simp only [offsetsFrom, List.getD_cons_succ, List.getD_cons_zero]
      rw [offsetsFrom_getD_zero]
    | succ j =>
      simp only [offsetsFrom, List.getD_cons_succ]
      exact ih _ (Nat.lt_of_succ_lt_succ h)

lemma offsetsFrom_chain (a : ℕ) (xs : List (List ℕ)) :
    (offsetsFrom a xs).Chain' (· ≤ ·) := by
  induction xs generalizing a with
  | nil => simp [offsetsFrom]
  | cons m ms ih =>
    rw [offsetsFrom, List.chain'_cons']
    refine ⟨?_, ih _⟩
    intro y hy
    have : (offsetsFrom (a + m.length) ms).head? = some (a + m.length) := by
      cases ms <;> rfl
    rw [this, Option.mem_some_iff] at hy
    omega

lemma getLastD_irrel {α : Type} : ∀ (l : List α) (d d' : α), l ≠ [] →
    l.getLastD d = l.getLastD d'
  | [], _, _, h => absurd rfl h
  | [x], _, _, _ => rfl
  | x :: y :: t, d, d', _ => by
    rw [List.getLastD_cons d x, List.getLastD_cons d' x]

lemma offsetsFrom_getLast (a : ℕ) (xs : List (List ℕ)) :
    (offsetsFrom a xs).getLastD 0 = a + (xs.map List.length).sum := by
  induction xs generalizing a with
  | nil => simp [offsetsFrom]
  | cons m ms ih =>
    have h1 : offsetsFrom a (m :: ms) = a :: offsetsFrom (a + m.length) ms := rfl
    rw [h1, List.getLastD_cons,
      getLastD_irrel _ a 0 (offsetsFrom_ne_nil _ _), ih]
    simp [Nat.add_assoc]

lemma appendRefined_length (rs : TBI → TBI) (bs : List TBI) (k : ℕ) :
    (appendRefined rs bs k).length = bs.length + k := by
  induction k generalizing bs with
  | zero => rfl
  | succ j ih =>
    rw [appendRefined, ih]
    simp
    omega

lemma needLevel_bases_length (B : HTB) (m : ℕ) :
    (needLevel B m).bases.length = max B.bases.length (m + 1) := by
  rw [needLevel]
  simp only [appendRefined_length]
  omega

lemma pushEmpties_length (xm : List (List ℕ)) (oldLen : ℕ) :
    (pushEmpties xm oldLen).length = max xm.length (oldLen + 1) := by
  rw [pushEmpties]
  simp only [List.length_append, List.length_replicate]
  omega

lemma dropTrailingEmpties_length_le (xs : List (List ℕ)) :
    (dropTrailingEmpties xs).length ≤ xs.length := by
  rw [dropTrailingEmpties]
  calc (xs.reverse.dropWhile (fun m => m.isEmpty)).reverse.length
      = (xs.reverse.dropWhile (fun m => m.isEmpty)).length := by rw [List.length_reverse]
    _ ≤ xs.reverse.length := (List.dropWhile_sublist _).length_le
    _ = xs.length := by rw [List.length_reverse]

lemma dropTrailingEmpties_getLast (xs : List (List ℕ))
    (h : ∃ m ∈ xs, m ≠ []) :
    (dropTrailingEmpties xs).getLast? ≠ some [] := by
  rw [dropTrailingEmpties, List.getLast?_reverse]
  obtain ⟨m, hm, hne⟩ := h
  have hnil : xs.reverse.dropWhile (fun m => m.isEmpty) ≠ [] := by
    rw [Ne, List.dropWhile_eq_nil_iff]
    push_neg
    exact ⟨m, List.mem_reverse.mpr hm, by simpa [List.isEmpty_iff] using hne⟩
  have hhead := List.head?_dropWhile_not (fun m => m.isEmpty) xs.reverse
  intro hcontra
  rw [hcontra] at hhead
  simp at hhead

lemma dropTrailingEmpties_ne_nil (xs : List (List ℕ))
    (h : ∃ m ∈ xs, m ≠ []) :
    dropTrailingEmpties xs ≠ [] := by
  rw [dropTrailingEmpties]
  obtain ⟨m, hm, hne⟩ := h
  simp only [Ne, List.reverse_eq_nil_iff, List.dropWhile_eq_nil_iff]
  push_neg
  exact ⟨m, List.mem_reverse.mpr hm, by simpa [List.isEmpty_iff] using hne⟩

lemma foldr_min_le_init (d : ℕ) (l : List ℕ) : l.foldr min d ≤ d := by
  induction l with
  | nil => exact Nat.le_refl d
  | cons x t ih => exact le_trans (Nat.min_le_right _ _) ih

lemma foldr_min_ge (d m : ℕ) (l : List ℕ) (hd : m ≤ d) (hl : ∀ x ∈ l, m ≤ x) :
    m ≤ l.foldr min d := by
  induction l with
  | nil => exact hd
  | cons x t ih =>
    simp only [List.foldr_cons]
    exact le_min (hl x (by simp)) (ih (fun y hy => hl y (by simp [hy])))

lemma foldr_max_ge_of_mem {l : List ℕ} {x : ℕ} (h : x ∈ l) : x ≤ l.foldr max 0 := by
  induction l with
  | nil => cases h
  | cons a t ih =>
    rcases List.mem_cons.mp h with rfl | hmem
    · exact Nat.le_max_left _ _
    · exact le_trans (ih hmem) (Nat.le_max_right _ _)

lemma foldr_max_le (l : List ℕ) (m : ℕ) (h : ∀ x ∈ l, x ≤ m) : l.foldr max 0 ≤ m := by
  induction l with
  | nil => exact Nat.zero_le m
  | cons a t ih =>
    simp only [List.foldr_cons]
    exact max_le (h a (by simp)) (ih (fun y hy => h y (by simp [hy])))

lemma effLevel_le_maxIns (t : HDomain) (hwf : t.WF) (g : ℕ) (c : List ℕ) :
    t.effLevel g c ≤ t.maxIns := by
  rw [HDomain.effLevel]
  refine foldr_max_le _ _ ?_
  intro x hx
  simp only [List.mem_map, List.mem_filter] at hx
  obtain ⟨b, ⟨hb, _⟩, rfl⟩ := hx
  exact hwf b hb

/-- Under well-formedness, `query3` never reports a level above the
maximal inserted level. -/
lemma query3_le_maxIns (t : HDomain) (hwf : t.WF) (k1 k2 : List ℕ) (lvl : ℕ) :
    t.query3 k1 k2 lvl ≤ t.maxIns := by
  rw [HDomain.query3]
  exact le_trans (foldr_min_le_init _ _) (effLevel_le_maxIns t hwf _ _)

lemma lowerBoundIdx_le_length (l : List ℕ) (x : ℕ) : lowerBoundIdx l x ≤ l.length := by
  induction l with
  | nil => exact Nat.le_refl 0
  | cons a t ih =>
    rw [lowerBoundIdx]
    split
    · simpa using ih
    · exact Nat.zero_le _

lemma pairwise_lt_head {a : ℕ} {t : List ℕ} (hs : (a :: t).Pairwise (· < ·)) :
    ∀ y ∈ t, a < y := by
  exact fun y hy => (List.pairwise_cons.mp hs).1 y hy

/-- On a sorted duplicate-free list, `lowerBoundIdx` of a member is its
rank: the number of elements smaller than it, and the element found
there is the member itself. -/
lemma lowerBoundIdx_mem (l : List ℕ) (x : ℕ) (hs : l.Pairwise (· < ·)) (hx : x ∈ l) :
    lowerBoundIdx l x < l.length ∧
    l.getD (lowerBoundIdx l x) 0 = x ∧
    lowerBoundIdx l x = l.countP (fun y => decide (y < x)) := by
  induction l with
  | nil => cases hx
  | cons a t ih =>
    by_cases hax : a < x
    · have hxt : x ∈ t := by
        rcases List.mem_cons.mp hx with rfl | h
        · exact absurd hax (Nat.lt_irrefl x)
        · exact h
      obtain ⟨h1, h2, h3⟩ := ih (List.pairwise_cons.mp hs).2 hxt
      refine ⟨?_, ?_, ?_⟩
      · rw [lowerBoundIdx, if_pos hax]
        simpa using h1
      · rw [lowerBoundIdx, if_pos hax, List.getD_cons_succ]
        exact h2
      · rw [lowerBoundIdx, if_pos hax, List.countP_cons, h3]
        simp [hax]
    · have hxa : x = a := by
        rcases List.mem_cons.mp hx with rfl | h
        · rfl
        · exact absurd ((pairwise_lt_head hs) x h) hax
      refine ⟨?_, ?_, ?_⟩
      · rw [lowerBoundIdx, if_neg hax]
        simp
      · rw [lowerBoundIdx, if_neg hax, List.getD_cons_zero, hxa]
      · rw [lowerBoundIdx, if_neg hax, List.countP_cons]
        have ht : t.countP (fun y => decide (y < x)) = 0 := by
          rw [List.countP_eq_zero]
          intro y hy
          have := pairwise_lt_head hs y hy
          simp only [decide_eq_true_eq]
          omega
        simp [ht, hax]

/-- On a sorted duplicate-free list, a non-member is never found by
`lowerBoundIdx`: either the index is past the end or the element there
differs. -/
lemma lowerBoundIdx_not_mem (l : List ℕ) (x : ℕ) (hx : x ∉ l)
    (hlt : lowerBoundIdx l x < l.length) :
    l.getD (lowerBoundIdx l x) 0 ≠ x := by
  induction l with
  | nil => cases hlt
  | cons a t ih =>
    rw [lowerBoundIdx]
    split
    · rw [List.getD_cons_succ]
      refine ih (fun h => hx (List.mem_cons.mpr (Or.inr h))) ?_
      rw [lowerBoundIdx, if_pos (by assumption)] at hlt
      simpa using hlt
    · rw [List.getD_cons_zero]
      intro h
      exact hx (h ▸ List.mem_cons_self a t)

lemma map_mul_one (l : List ℕ) : l.map (fun x => x * 1) = l := by
  simp

lemma allLt_length {lo hi : List ℕ} (h : allLt lo hi = true) : lo.length = hi.length := by
  induction lo generalizing hi with
  | nil => cases hi with
    | nil => rfl
    | cons b bs => simp [allLt] at h
  | cons a as ih =>
    cases hi with
    | nil => simp [allLt] at h
    | cons b bs =>
      rw [allLt, Bool.and_eq_true] at h
      simp [ih h.2]

lemma allLt_cellInBox_self {lo hi : List ℕ} (h : allLt lo hi = true) :
    cellInBox lo hi lo = true := by
  induction lo generalizing hi with
  | nil => cases hi with
    | nil => rfl
    | cons b bs => simp [allLt] at h
  | cons a as ih =>
    cases hi with
    | nil => simp [allLt] at h
    | cons b bs =>
      rw [allLt, Bool.and_eq_true, decide_eq_true_eq] at h
      rw [cellInBox, Bool.and_eq_true, Bool.and_eq_true]
      exact ⟨⟨by simp, by simp [h.1]⟩, ih h.2⟩

lemma allLt_map_mul {lo hi : List ℕ} (s : ℕ) (hs : 0 < s) (h : allLt lo hi = true) :
    allLt (lo.map (fun x => x * s)) (hi.map (fun x => x * s)) = true := by
  induction lo generalizing hi with
  | nil => cases hi with
    | nil => rfl
    | cons b bs => simp [allLt] at h
  | cons a as ih =>
    cases hi with
    | nil => simp [allLt] at h
    | cons b bs =>
      rw [allLt, Bool.and_eq_true, decide_eq_true_eq] at h
      rw [List.map_cons, List.map_cons, allLt, Bool.and_eq_true, decide_eq_true_eq]
      exact ⟨(Nat.mul_lt_mul_right hs).mpr h.1, ih h.2⟩

/-- Every enumerated cell of a box lies inside the box. -/
lemma cellsIn_mem {lo hi : List ℕ} (hlen : lo.length = hi.length) :
    ∀ c ∈ cellsIn lo hi, cellInBox lo hi c = true := by
  induction lo generalizing hi with
  | nil =>
    cases hi with
    | nil =>
      intro c hc
      have he : cellsIn ([] : List ℕ) [] = [[]] := rfl
      rw [he] at hc
      simp only [List.mem_singleton] at hc
      subst hc
      rfl
    | cons b bs => simp at hlen
  | cons a as ih =>
    cases hi with
    | nil => simp at hlen
    | cons b bs =>
      intro c hc
      rw [cellsIn, List.mem_flatMap] at hc
      obtain ⟨x, hx, hc⟩ := hc
      rw [List.mem_map] at hc
      obtain ⟨c0, hc0, rfl⟩ := hc
      rw [List.mem_range'_1] at hx
      rw [cellInBox, Bool.and_eq_true, Bool.and_eq_true, decide_eq_true_eq, decide_eq_true_eq]
      refine ⟨⟨hx.1, ?_⟩, ih (by simpa using hlen) c0 hc0⟩
      have := hx.2
      omega

/-- Inserting a box raises the effective level of every cell inside it to
at least the inserted level. -/
lemma effLevel_insert_ge (t : HDomain) (k1 k2 : List ℕ) (lvl cLvl : ℕ) (c : List ℕ)
    (hc : cellInBox (k1.map (fun x => x * 2 ^ (max t.unit cLvl - cLvl)))
                    (k2.map (fun x => x * 2 ^ (max t.unit cLvl - cLvl))) c = true) :
    lvl ≤ (t.insertBoxAt k1 k2 lvl cLvl).effLevel (max t.unit cLvl) c := by
  rw [HDomain.insertBoxAt, HDomain.effLevel]
  simp only [Nat.sub_self, pow_zero, map_mul_one]
  refine foldr_max_ge_of_mem ?_
  rw [List.mem_map]
  refine ⟨(k1.map (fun x => x * 2 ^ (max t.unit cLvl - cLvl)),
           k2.map (fun x => x * 2 ^ (max t.unit cLvl - cLvl)), lvl), ?_, rfl⟩
  rw [List.mem_filter]
  constructor
  · simp
  · simpa [map_mul_one] using hc

/-- Sinking a nonempty box strictly refines the tree over that box: the
`query3` answer over the box increases by at least one, so the
refinement request is never a no-op on the tree. -/
lemma sinkBox_query3_lt (t : HDomain) (k1 k2 : List ℕ) (f : ℕ)
    (h : allLt k1 k2 = true) :
    t.query3 k1 k2 f + 1 ≤ (t.sinkBox k1 k2 f).query3 k1 k2 f := by
  rw [HDomain.sinkBox]
  generalize hL : t.query3 k1 k2 f = L
  have hunit : (t.insertBoxAt k1 k2 (L + 1) f).unit = max t.unit f := rfl
  rw [HDomain.query3]
  simp only [hunit, max_assoc, max_self]
  have hs : (0:ℕ) < 2 ^ (max t.unit f - f) := Nat.pos_pow_of_pos _ (by omega)
  have hsc := allLt_map_mul (2 ^ (max t.unit f - f)) hs h
  have hlen := allLt_length hsc
  refine foldr_min_ge _ _ _ ?_ ?_
  · exact effLevel_insert_ge t k1 k2 (L + 1) f _ (allLt_cellInBox_self hsc)
  · intro x hx
    rw [List.mem_map] at hx
    obtain ⟨c, hc, rfl⟩ := hx
    exact effLevel_insert_ge t k1 k2 (L + 1) f c (cellsIn_mem hlen c hc)

lemma update_structure_tree (B : HTB) : (update_structure B).tree = B.tree := rfl

lemma update_structure_bases (B : HTB) :
    (update_structure B).bases = (needLevel B B.tree.maxIns).bases := rfl

lemma update_structure_xmatrix_length (B : HTB) :
    (update_structure B).xmatrix.length = (update_structure B).bases.length := by
  rw [update_structure]
  simp only [length_range_map]

lemma update_structure_xmatrix_getD (B : HTB) {i : ℕ}
    (hi : i < (needLevel B B.tree.maxIns).bases.length) :
    (update_structure B).xmatrix.getD i []
      = set_activ1 B.tree ((needLevel B B.tree.maxIns).bases.getD i default) i := by
  rw [update_structure]
  exact getD_range_map _ _ hi

lemma update_structure_offset (B : HTB) :
    (update_structure B).offset = offsetsOf (update_structure B).xmatrix := rfl

/-- Membership in a rebuilt characteristic matrix is exactly the tree
query returning the level, provided the tree is well-formed. -/
lemma set_activ1_mem (t : HDomain) (hwf : t.WF) (tb : TBI) (level k : ℕ)
    (hk : k < tensorSize tb) :
    k ∈ set_activ1 t tb level ↔
      t.query3 (suppLows tb.dirs k) (suppUpps tb.dirs k) level = level := by
  rw [set_activ1]
  by_cases hmax : t.maxIns < level
  · rw [if_pos hmax]
    have := query3_le_maxIns t hwf (suppLows tb.dirs k) (suppUpps tb.dirs k) level
    simp only [List.not_mem_nil, false_iff]
    omega
  · rw [if_neg hmax, List.mem_filter, List.mem_range]
    simp [hk]

/-- The front-trimming loop of `makeCompressed` drops a common prefix of
`k` levels, where the dropped levels are exactly the leading levels with
an empty active count in the offset table; trailing levels are never
touched. -/
lemma compressFront_spec (off : List ℕ) (t : HDomain) (bs : List TBI)
    (xm : List (List ℕ)) :
    ∃ k, compressFront t bs xm off
        = (HDomain.decrementLevel^[k] t, bs.drop k, xm.drop k, off.drop k) ∧
      (∀ i < k, off.getD (i + 1) 0 = 0) ∧
      (2 ≤ (off.drop k).length → (off.drop k).getD 1 0 ≠ 0) := by
  induction off generalizing t bs xm with
  | nil => exact ⟨0, rfl, by omega, by simp⟩
  | cons o0 os ih =>
    cases os with
    | nil => exact ⟨0, rfl, by omega, by simp⟩
    | cons o1 os1 =>
      by_cases h1 : o1 = 0
      · obtain ⟨k, hk, hzero, hstop⟩ := ih t.decrementLevel bs.tail xm.tail
        refine ⟨k + 1, ?_, ?_, ?_⟩
        · rw [compressFront, if_pos h1, hk]
          have hbs : bs.tail.drop k = bs.drop (k + 1) := by
            rw [← List.drop_one, List.drop_drop, Nat.add_comm]
          have hxm : xm.tail.drop k = xm.drop (k + 1) := by
            rw [← List.drop_one, List.drop_drop, Nat.add_comm]
          rw [hbs, hxm, Function.iterate_succ_apply]
          rfl
        · intro i hi
          cases i with
          | zero => simpa using h1
          | succ j =>
            rw [List.getD_cons_succ]
            exact hzero j (by omega)
        · simpa using hstop
      · refine ⟨0, ?_, by omega, ?_⟩
        · rw [compressFront, if_neg h1]
          rfl
        · intro _
          simpa using h1

/-! ## Claim theorems -/

/-- C1: after `update_structure` rebuilds the activation tables, for
every level `i` and every tensor-index function `k` of `basis[i]`, `k`
is in the level-`i` characteristic matrix iff the tree query (`query3`)
on `k`'s support box, expressed in level-`i` index units, returns
exactly `i`. -/
theorem C1_active_iff_query3 (B : HTB) (hwf : B.tree.WF) (i k : ℕ)
    (hi : i < (update_structure B).xmatrix.length)
    (hk : k < tensorSize ((update_structure B).bases.getD i default)) :
    k ∈ (update_structure B).xmatrix.getD i [] ↔
      (update_structure B).tree.query3
        (suppLows ((update_structure B).bases.getD i default).dirs k)
        (suppUpps ((update_structure B).bases.getD i default).dirs k) i = i := by
  have hi2 : i < (needLevel B B.tree.maxIns).bases.length := by
    rw [update_structure_xmatrix_length, update_structure_bases] at hi
    exact hi
  rw [update_structure_xmatrix_getD B hi2, update_structure_tree, update_structure_bases]
  exact set_activ1_mem B.tree hwf _ i k hk

/-- Witness for C1 evaluated on the fresh 1D example basis: function `0`
of level `0` is active and the query confirms it. -/
theorem C1_witness :
    exA.tree.WF ∧ 0 < (update_structure exA).xmatrix.length ∧
    0 < tensorSize ((update_structure exA).bases.getD 0 default) ∧
    (0 ∈ (update_structure exA).xmatrix.getD 0 [] ↔
      (update_structure exA).tree.query3
        (suppLows ((update_structure exA).bases.getD 0 default).dirs 0)
        (suppUpps ((update_structure exA).bases.getD 0 default).dirs 0) 0 = 0) :=
  ⟨by decide, by decide, by decide,
   C1_active_iff_query3 exA (by decide) 0 0 (by decide) (by decide)⟩

/-- C2: after every `update_structure`, the offset table satisfies
`offset[0] = 0` and `offset[i+1] = offset[i] + |active-set(i)|`;
consequently the offsets are non-decreasing, and `size()` equals the
last offset entry, which equals the sum of all per-level active-set
sizes. -/
theorem C2_offset_invariant (B : HTB) :
    (update_structure B).offset.getD 0 0 = 0 ∧
    (∀ i < (update_structure B).xmatrix.length,
      (update_structure B).offset.getD (i + 1) 0
        = (update_structure B).offset.getD i 0
          + ((update_structure B).xmatrix.getD i []).length) ∧
    (update_structure B).offset.Chain' (· ≤ ·) ∧
    size (update_structure B) = (update_structure B).offset.getLastD 0 ∧
    size (update_structure B) = ((update_structure B).xmatrix.map List.length).sum := by
  rw [update_structure_offset, offsetsOf]
  refine ⟨offsetsFrom_getD_zero _ _, ?_, offsetsFrom_chain _ _, rfl, ?_⟩
  · intro i hi
    exact offsetsFrom_getD_succ _ _ hi
  · rw [size, update_structure_offset, offsetsOf, offsetsFrom_getLast]
    omega

/-- Witness for C2 on the fresh 1D example basis. -/
theorem C2_witness :
    (update_structure exA).offset.getD 0 0 = 0 ∧
    (update_structure exA).offset.getD 1 0
      = (update_structure exA).offset.getD 0 0
        + ((update_structure exA).xmatrix.getD 0 []).length ∧
    size (update_structure exA) = ((update_structure exA).xmatrix.map List.length).sum :=
  ⟨(C2_offset_invariant exA).1,
   (C2_offset_invariant exA).2.1 0 (by decide),
   (C2_offset_invariant exA).2.2.2.2⟩

/-- C4 counterexample: `makeCompressed` removes the *coarsest* level
when its active set is empty (state `exFrontEmpty`: level 0 empty,
level 1 active — the front level is erased), and does *not* remove an
empty tail level (state `exTailEmpty`: level 1 empty and retained).
This falsifies the claim that empty levels are removed only from the
tail and that the coarsest level is never removed. -/
theorem C4_counterexample :
    exFrontEmpty.xmatrix.getD 0 [] = [] ∧
    (makeCompressed exFrontEmpty).xmatrix = [[5]] ∧
    (makeCompressed exFrontEmpty).bases.length = 1 ∧
    exTailEmpty.xmatrix.getD 1 [] = [] ∧
    (makeCompressed exTailEmpty).xmatrix = [[1], []] := by
  decide

/-- C4 amended: `makeCompressed` removes empty levels only from the
*front*: it drops the coarsest level as long as the coarsest active
count is zero (`m_xmatrix_offset[1] == 0`), erasing the basis, the
characteristic matrix and the offset entry together and decrementing
the tree; the remaining (tail) part of every array is kept unchanged,
and afterwards the coarsest remaining active count is nonzero. -/
theorem C4_front_trim (B : HTB) :
    ∃ k, (makeCompressed B).tree = HDomain.decrementLevel^[k] B.tree ∧
      (makeCompressed B).bases = B.bases.drop k ∧
      (makeCompressed B).xmatrix = B.xmatrix.drop k ∧
      (makeCompressed B).offset = B.offset.drop k ∧
      (∀ i < k, B.offset.getD (i + 1) 0 = 0) ∧
      (2 ≤ (makeCompressed B).offset.length → (makeCompressed B).offset.getD 1 0 ≠ 0) := by
  obtain ⟨k, hk, hz, hs⟩ := compressFront_spec B.offset B.tree B.bases B.xmatrix
  refine ⟨k, ?_, ?_, ?_, ?_, hz, ?_⟩
  · rw [makeCompressed]
    simp only [hk]
  · rw [makeCompressed]
    simp only [hk]
  · rw [makeCompressed]
    simp only [hk]
  · rw [makeCompressed]
    simp only [hk]
  · rw [makeCompressed]
    simp only [hk]
    exact hs

/-- Witness for the amended C4 at the concrete front-empty state. -/
theorem C4_witness :
    ∃ k, (makeCompressed exFrontEmpty).tree = HDomain.decrementLevel^[k] exFrontEmpty.tree ∧
      (makeCompressed exFrontEmpty).bases = exFrontEmpty.bases.drop k ∧
      (makeCompressed exFrontEmpty).xmatrix = exFrontEmpty.xmatrix.drop k ∧
      (makeCompressed exFrontEmpty).offset = exFrontEmpty.offset.drop k ∧
      (∀ i < k, exFrontEmpty.offset.getD (i + 1) 0 = 0) ∧
      (2 ≤ (makeCompressed exFrontEmpty).offset.length →
        (makeCompressed exFrontEmpty).offset.getD 1 0 ≠ 0) :=
  C4_front_trim exFrontEmpty

/-- C5 counterexample: after `transfer2` the trailing empty
characteristic matrices are *not* pruned — on the fresh example basis
(whose levels 1 and 2 are empty) `transfer2` even appends one more
empty matrix and leaves all of them in place, while `transfer` does
prune them.  This falsifies the claim that both `transfer` and
`transfer2` prune trailing empty levels. -/
theorem C5_counterexample :
    (transfer2 exA exA.xmatrix).xmatrix.getLast? = some [] ∧
    (transfer2 exA exA.xmatrix).xmatrix.length = 4 ∧
    (transfer exA exA.xmatrix).xmatrix = [[0, 1, 2]] := by
  refine ⟨?_, ?_, ?_⟩ <;> decide

/-- C5 amended: after `transfer`, trailing levels with empty active sets
are pruned from the characteristic-matrix array and the basis array
together, so both arrays have equal length and the last remaining
active set is nonempty.  `transfer2`, by contrast, performs no pruning:
it leaves every trailing empty characteristic matrix in place (it even
appends one when `old` has at least as many levels as the current
state), although starting from a state with equally long arrays the two
arrays still have equal length on exit. -/
theorem C5_transfer_pruning :
    (∀ (B : HTB) (old : List (List ℕ)),
      B.xmatrix.length = B.bases.length →
      (∃ m ∈ B.xmatrix, m ≠ []) →
      (transfer B old).bases.length = (transfer B old).xmatrix.length ∧
      (transfer B old).xmatrix.getLast? ≠ some []) ∧
    (∀ (B : HTB) (old : List (List ℕ)),
      B.xmatrix.length = B.bases.length →
      (transfer2 B old).bases.length = (transfer2 B old).xmatrix.length) ∧
    (∀ (B : HTB) (old : List (List ℕ)),
      B.xmatrix.length ≤ old.length →
      (transfer2 B old).xmatrix.getLast? = some []) := by
  refine ⟨?_, ?_, ?_⟩
  · intro B old hlen hne
    have hB1x : (needLevel B old.length).xmatrix = B.xmatrix := rfl
    have hb1 : (needLevel B old.length).bases.length = max B.bases.length (old.length + 1) :=
      needLevel_bases_length B old.length
    have hx1 : (pushEmpties B.xmatrix old.length).length = max B.xmatrix.length (old.length + 1) :=
      pushEmpties_length _ _
    have hne1 : ∃ m ∈ pushEmpties B.xmatrix old.length, m ≠ [] := by
      obtain ⟨m, hm, h⟩ := hne
      exact ⟨m, by rw [pushEmpties]; exact List.mem_append.mpr (Or.inl hm), h⟩
    have hdrop := dropTrailingEmpties_length_le (pushEmpties B.xmatrix old.length)
    constructor
    · rw [transfer]
      simp only [hB1x]
      split
      · next hlt =>
        rw [List.length_take, hb1, ← hlen, ← hx1]
        exact Nat.min_eq_left (le_of_lt (by simpa [hB1x, hb1, ← hlen, ← hx1] using hlt))
      · next hge =>
        rw [hb1, ← hlen, ← hx1]
        have h1 : (needLevel B old.length).bases.length
            ≤ (dropTrailingEmpties (pushEmpties B.xmatrix old.length)).length := by
          omega
        rw [hb1, ← hlen, ← hx1] at h1
        omega
    · rw [transfer]
      simp only [hB1x]
      exact dropTrailingEmpties_getLast _ hne1
  · intro B old hlen
    rw [transfer2]
    have hB1x : (needLevel B old.length).xmatrix = B.xmatrix := rfl
    simp only [hB1x]
    rw [needLevel_bases_length, pushEmpties_length, hlen]
  · intro B old hle
    rw [transfer2]
    have hB1x : (needLevel B old.length).xmatrix = B.xmatrix := rfl
    simp only [hB1x]
    rw [pushEmpties, List.getLast?_append, List.getLast?_replicate]
    rw [if_neg (by omega)]
    rfl

/-- Witness for the amended C5 at the concrete fresh example basis. -/
theorem C5_witness :
    ((transfer exA exA.xmatrix).bases.length = (transfer exA exA.xmatrix).xmatrix.length ∧
      (transfer exA exA.xmatrix).xmatrix.getLast? ≠ some []) ∧
    (transfer2 exA exA.xmatrix).bases.length = (transfer2 exA exA.xmatrix).xmatrix.length ∧
    (transfer2 exA exA.xmatrix).xmatrix.getLast? = some [] :=
  ⟨C5_transfer_pruning.1 exA exA.xmatrix (by decide) ⟨[0, 1, 2], by decide, by decide⟩,
   C5_transfer_pruning.2.1 exA exA.xmatrix (by decide),
   C5_transfer_pruning.2.2 exA exA.xmatrix (by decide)⟩

lemma refineCorners_spec (ds : List DirInfo) (lo hi : List ℚ)
    (hlo : lo.length = ds.length) (hhi : hi.length = ds.length)
    (hdeg : ∀ j < ds.length,
      (rawCorner1 (ds.getD j default).uKnots (lo.getD j 0) (hi.getD j 0)).1
        = (rawCorner1 (ds.getD j default).uKnots (lo.getD j 0) (hi.getD j 0)).2) :
    (refineCorners ds lo hi).1.length = ds.length ∧
    (refineCorners ds lo hi).2.length = ds.length ∧
    ∀ j < ds.length,
      (refineCorners ds lo hi).1.getD j 0
        = (rawCorner1 (ds.getD j default).uKnots (lo.getD j 0) (hi.getD j 0)).1 - 1 ∧
      (refineCorners ds lo hi).2.getD j 0
        = (rawCorner1 (ds.getD j default).uKnots (lo.getD j 0) (hi.getD j 0)).1 + 1 := by
  induction ds generalizing lo hi with
  | nil =>
    refine ⟨?_, ?_, ?_⟩
    · cases lo <;> cases hi <;> simp_all [refineCorners]
    · cases lo <;> cases hi <;> simp_all [refineCorners]
    · intro j hj
      exact absurd hj (by simp)
  | cons dI ds1 ih =>
    cases lo with
    | nil => simp at hlo
    | cons x xs =>
      cases hi with
      | nil => simp at hhi
      | cons y ys =>
        have hx : xs.length = ds1.length := by simpa using hlo
        have hy : ys.length = ds1.length := by simpa using hhi
        have hd1 : ∀ j < ds1.length,
            (rawCorner1 (ds1.getD j default).uKnots (xs.getD j 0) (ys.getD j 0)).1
              = (rawCorner1 (ds1.getD j default).uKnots (xs.getD j 0) (ys.getD j 0)).2 := by
          intro j hj
          have := hdeg (j + 1) (by simpa using Nat.succ_lt_succ hj)
          simpa using this
        obtain ⟨ihl1, ihl2, ihget⟩ := ih xs ys hx hy hd1
        have h0 := hdeg 0 (by simp)
        simp only [List.getD_cons_zero] at h0
        have hrc : refineCorner1 dI.uKnots x y
            = ((rawCorner1 dI.uKnots x y).1 - 1, (rawCorner1 dI.uKnots x y).1 + 1) := by
          rw [refineCorner1, if_pos h0]
          rw [← h0]
        refine ⟨?_, ?_, ?_⟩
        · simp [refineCorners, ihl1]
        · simp [refineCorners, ihl2]
        · intro j hj
          cases j with
          | zero =>
            simp [refineCorners, hrc]
          | succ i =>
            simp only [refineCorners, List.getD_cons_succ]
            exact ihget i (by simpa using Nat.lt_of_succ_lt_succ hj)

lemma allLt_of_pointwise (lo hi : List ℕ) (hlen : lo.length = hi.length)
    (h : ∀ j < lo.length, lo.getD j 0 < hi.getD j 0) : allLt lo hi = true := by
  induction lo generalizing hi with
  | nil =>
    cases hi with
    | nil => rfl
    | cons b bs => simp at hlen
  | cons a as ih =>
    cases hi with
    | nil => simp at hlen
    | cons b bs =>
      rw [allLt, Bool.and_eq_true, decide_eq_true_eq]
      refine ⟨by simpa using h 0 (by simp), ih bs (by simpa using hlen) ?_⟩
      intro j hj
      simpa using h (j + 1) (by simpa using Nat.succ_lt_succ hj)

/-- C6: in box-based refinement (`refine(boxes)`), a parametric box
whose knot-index corners coincide in every direction (zero width) is
expanded before sinking: in every direction the upper corner grows by
one cell and the lower corner shrinks by one cell (clamped at zero), so
the sunk box is nonempty in every direction, and sinking it strictly
raises the tree level over the box — the refinement request is not a
no-op.  The last conjunct ties this to `refine`'s box loop: `refineOne`
sinks exactly the expanded box. -/
theorem C6_degenerate_box_expanded (B : HTB) (lo hi : List ℚ)
    (hlo : lo.length = (B.bases.getLastD default).dirs.length)
    (hhi : hi.length = (B.bases.getLastD default).dirs.length)
    (hdeg : ∀ j < (B.bases.getLastD default).dirs.length,
      (rawCorner1 ((B.bases.getLastD default).dirs.getD j default).uKnots
        (lo.getD j 0) (hi.getD j 0)).1
      = (rawCorner1 ((B.bases.getLastD default).dirs.getD j default).uKnots
        (lo.getD j 0) (hi.getD j 0)).2) :
    (∀ j < (B.bases.getLastD default).dirs.length,
      (refineCorners (B.bases.getLastD default).dirs lo hi).1.getD j 0
        = (rawCorner1 ((B.bases.getLastD default).dirs.getD j default).uKnots
            (lo.getD j 0) (hi.getD j 0)).1 - 1 ∧
      (refineCorners (B.bases.getLastD default).dirs lo hi).2.getD j 0
        = (rawCorner1 ((B.bases.getLastD default).dirs.getD j default).uKnots
            (lo.getD j 0) (hi.getD j 0)).1 + 1 ∧
      (refineCorners (B.bases.getLastD default).dirs lo hi).1.getD j 0
        < (refineCorners (B.bases.getLastD default).dirs lo hi).2.getD j 0) ∧
    allLt (refineCorners (B.bases.getLastD default).dirs lo hi).1
          (refineCorners (B.bases.getLastD default).dirs lo hi).2 = true ∧
    B.tree.query3 (refineCorners (B.bases.getLastD default).dirs lo hi).1
        (refineCorners (B.bases.getLastD default).dirs lo hi).2 (B.bases.length - 1) + 1
      ≤ (B.tree.sinkBox (refineCorners (B.bases.getLastD default).dirs lo hi).1
          (refineCorners (B.bases.getLastD default).dirs lo hi).2
          (B.bases.length - 1)).query3
          (refineCorners (B.bases.getLastD default).dirs lo hi).1
          (refineCorners (B.bases.getLastD default).dirs lo hi).2 (B.bases.length - 1) ∧
    refineOne B (lo, hi)
      = needLevel
          { B with tree := B.tree.sinkBox (refineCorners (B.bases.getLastD default).dirs lo hi).1 (refineCorners (B.bases.getLastD default).dirs lo hi).2 (B.bases.length - 1) }
          (B.tree.sinkBox (refineCorners (B.bases.getLastD default).dirs lo hi).1
            (refineCorners (B.bases.getLastD default).dirs lo hi).2
            (B.bases.length - 1)).maxIns := by
  obtain ⟨hl1, hl2, hget⟩ :=
    refineCorners_spec (B.bases.getLastD default).dirs lo hi hlo hhi hdeg
  have hpt : ∀ j < (B.bases.getLastD default).dirs.length,
      (refineCorners (B.bases.getLastD default).dirs lo hi).1.getD j 0
        < (refineCorners (B.bases.getLastD default).dirs lo hi).2.getD j 0 := by
    intro j hj
    obtain ⟨e1, e2⟩ := hget j hj
    omega
  have hall : allLt (refineCorners (B.bases.getLastD default).dirs lo hi).1
      (refineCorners (B.bases.getLastD default).dirs lo hi).2 = true := by
    refine allLt_of_pointwise _ _ (by omega) ?_
    intro j hj
    exact hpt j (by omega)
  refine ⟨?_, hall, ?_, rfl⟩
  · intro j hj
    obtain ⟨e1, e2⟩ := hget j hj
    exact ⟨e1, e2, hpt j hj⟩
  · exact sinkBox_query3_lt B.tree _ _ _ hall

/-- Witness for C6: on the fresh 1D example basis, the degenerate
parametric box `[0, 0]` (both corners in the first cell of the finest
level) is expanded to a one-cell box before sinking. -/
theorem C6_witness :
    ([(0 : ℚ)].length = (exA.bases.getLastD default).dirs.length) ∧
    ((∀ j < (exA.bases.getLastD default).dirs.length,
      (refineCorners (exA.bases.getLastD default).dirs [(0 : ℚ)] [(0 : ℚ)]).1.getD j 0
        = (rawCorner1 ((exA.bases.getLastD default).dirs.getD j default).uKnots
            ([(0 : ℚ)].getD j 0) ([(0 : ℚ)].getD j 0)).1 - 1 ∧
      (refineCorners (exA.bases.getLastD default).dirs [(0 : ℚ)] [(0 : ℚ)]).2.getD j 0
        = (rawCorner1 ((exA.bases.getLastD default).dirs.getD j default).uKnots
            ([(0 : ℚ)].getD j 0) ([(0 : ℚ)].getD j 0)).1 + 1 ∧
      (refineCorners (exA.bases.getLastD default).dirs [(0 : ℚ)] [(0 : ℚ)]).1.getD j 0
        < (refineCorners (exA.bases.getLastD default).dirs [(0 : ℚ)] [(0 : ℚ)]).2.getD j 0) ∧
    allLt (refineCorners (exA.bases.getLastD default).dirs [(0 : ℚ)] [(0 : ℚ)]).1
          (refineCorners (exA.bases.getLastD default).dirs [(0 : ℚ)] [(0 : ℚ)]).2 = true ∧
    exA.tree.query3 (refineCorners (exA.bases.getLastD default).dirs [(0 : ℚ)] [(0 : ℚ)]).1
        (refineCorners (exA.bases.getLastD default).dirs [(0 : ℚ)] [(0 : ℚ)]).2
        (exA.bases.length - 1) + 1
      ≤ (exA.tree.sinkBox
          (refineCorners (exA.bases.getLastD default).dirs [(0 : ℚ)] [(0 : ℚ)]).1
          (refineCorners (exA.bases.getLastD default).dirs [(0 : ℚ)] [(0 : ℚ)]).2
          (exA.bases.length - 1)).query3
          (refineCorners (exA.bases.getLastD default).dirs [(0 : ℚ)] [(0 : ℚ)]).1
          (refineCorners (exA.bases.getLastD default).dirs [(0 : ℚ)] [(0 : ℚ)]).2
          (exA.bases.length - 1) ∧
    refineOne exA ([(0 : ℚ)], [(0 : ℚ)])
      = needLevel
          { exA with tree := exA.tree.sinkBox (refineCorners (exA.bases.getLastD default).dirs [(0 : ℚ)] [(0 : ℚ)]).1 (refineCorners (exA.bases.getLastD default).dirs [(0 : ℚ)] [(0 : ℚ)]).2 (exA.bases.length - 1) }
          (exA.tree.sinkBox
            (refineCorners (exA.bases.getLastD default).dirs [(0 : ℚ)] [(0 : ℚ)]).1
            (refineCorners (exA.bases.getLastD default).dirs [(0 : ℚ)] [(0 : ℚ)]).2
            (exA.bases.length - 1)).maxIns) :=
  ⟨by decide,
   C6_degenerate_box_expanded exA [(0 : ℚ)] [(0 : ℚ)] (by decide) (by decide) (by decide)⟩

/-- C7 counterexample: for a level that is out of range
(`level = 3 = m_xmatrix.size()` on the fresh example basis), the single
form `flatTensorIndexToHierachicalIndex` returns the sentinel `-1`
instead of failing fast — contradicting the claim that *both* forms
fail with a fatal assertion rather than returning a sentinel. -/
theorem C7_counterexample :
    exA.xmatrix.length ≤ 3 ∧ flatTensorIndexToHierachicalIndex exA 0 3 = -1 := by
  refine ⟨?_, ?_⟩ <;> decide

/-- C7 amended: an out-of-range level is guarded differently by the two
forms: the batch form `flatTensorIndexesToHierachicalIndexes` fails
fast by fatal assertion (modelled as `none`) exactly when the level is
not smaller than the number of stored levels, while the single form
`flatTensorIndexToHierachicalIndex` returns the sentinel `-1` for such
levels. -/
theorem C7_level_guard :
    (∀ (B : HTB) (idx lvl : ℕ), B.xmatrix.length ≤ lvl →
      flatTensorIndexToHierachicalIndex B idx lvl = -1) ∧
    (∀ (B : HTB) (idxs : List ℤ) (lvl : ℕ), B.xmatrix.length ≤ lvl →
      flatTensorIndexesToHierachicalIndexes B idxs lvl = none) ∧
    (∀ (B : HTB) (idxs : List ℤ) (lvl : ℕ), lvl < B.xmatrix.length →
      (flatTensorIndexesToHierachicalIndexes B idxs lvl).isSome = true) := by
  refine ⟨?_, ?_, ?_⟩
  · intro B idx lvl h
    rw [flatTensorIndexToHierachicalIndex, if_pos h]
  · intro B idxs lvl h
    rw [flatTensorIndexesToHierachicalIndexes, if_neg (by omega)]
  · intro B idxs lvl h
    rw [flatTensorIndexesToHierachicalIndexes, if_pos h]
    rfl

/-- Witness for the amended C7 at the fresh example basis. -/
theorem C7_witness :
    flatTensorIndexToHierachicalIndex exA 0 5 = -1 ∧
    flatTensorIndexesToHierachicalIndexes exA [0] 5 = none ∧
    (flatTensorIndexesToHierachicalIndexes exA [0] 0).isSome = true :=
  ⟨C7_level_guard.1 exA 0 5 (by decide),
   C7_level_guard.2.1 exA [0] 5 (by decide),
   C7_level_guard.2.2 exA [0] 0 (by decide)⟩

/-- C8: for a valid level and a sorted characteristic matrix,
`flatTensorIndexToHierachicalIndex` returns the level's offset-table
entry plus the rank of the flat index inside the sorted active set when
the index is active there, and the sentinel `-1` when it is not. -/
theorem C8_flat_to_hier (B : HTB) (idx lvl : ℕ)
    (h1 : lvl < B.xmatrix.length)
    (h2 : (B.xmatrix.getD lvl []).Pairwise (· < ·)) :
    (idx ∈ B.xmatrix.getD lvl [] →
      flatTensorIndexToHierachicalIndex B idx lvl
        = (B.offset.getD lvl 0 : ℤ)
          + (B.xmatrix.getD lvl []).countP (fun y => decide (y < idx))) ∧
    (idx ∉ B.xmatrix.getD lvl [] →
      flatTensorIndexToHierachicalIndex B idx lvl = -1) := by
  constructor
  · intro hmem
    obtain ⟨hlt, hget, hcnt⟩ := lowerBoundIdx_mem (B.xmatrix.getD lvl []) idx h2 hmem
    rw [flatTensorIndexToHierachicalIndex, if_neg (by omega)]
    simp only [if_pos hlt, if_pos hget]
    rw [hcnt]
  · intro hmem
    rw [flatTensorIndexToHierachicalIndex, if_neg (by omega)]
    by_cases hlt : lowerBoundIdx (B.xmatrix.getD lvl []) idx < (B.xmatrix.getD lvl []).length
    · have hne := lowerBoundIdx_not_mem (B.xmatrix.getD lvl []) idx hmem hlt
      simp only [if_pos hlt, if_neg hne]
    · simp only [if_neg hlt]

/-- Witness for C8 at the fresh example basis: flat index `1` of level 0
is active with rank 1; flat index `5` is not active. -/
theorem C8_witness :
    (flatTensorIndexToHierachicalIndex exA 1 0
      = (exA.offset.getD 0 0 : ℤ)
        + (exA.xmatrix.getD 0 []).countP (fun y => decide (y < 1))) ∧
    flatTensorIndexToHierachicalIndex exA 5 0 = -1 :=
  ⟨(C8_flat_to_hier exA 1 0 (by decide) (by decide)).1 (by decide),
   (C8_flat_to_hier exA 5 0 (by decide) (by decide)).2 (by decide)⟩

lemma getLastD_eq_getD_pred (l : List ℕ) : l.getLastD 0 = l.getD (l.length - 1) 0 := by
  rw [List.getLastD_eq_getLast?, List.getLast?_eq_getElem?, List.getD_eq_getElem?_getD]

/-- C9: after every `update_structure` the characteristic-matrix array
has exactly one entry per stored per-level basis, and every level
strictly above the tree's maximal inserted level has an empty active
set; a freshly constructed basis stores three per-level bases of which
levels 1 and 2 contribute zero active functions, so the empty tail
levels add zero-size steps to the offset table without changing the
total basis size. -/
theorem C9_empty_tail_levels :
    (∀ B : HTB, (update_structure B).xmatrix.length = (update_structure B).bases.length) ∧
    (∀ (B : HTB) (i : ℕ), B.tree.maxIns < i → i < (update_structure B).xmatrix.length →
      (update_structure B).xmatrix.getD i [] = []) ∧
    (∀ (tb : TBI) (rs : TBI → TBI),
      (construct tb rs).bases.length = 3 ∧
      (construct tb rs).xmatrix.length = 3 ∧
      (construct tb rs).xmatrix.getD 1 [] = [] ∧
      (construct tb rs).xmatrix.getD 2 [] = [] ∧
      (construct tb rs).offset.getD 2 0 = (construct tb rs).offset.getD 1 0 ∧
      (construct tb rs).offset.getD 3 0 = (construct tb rs).offset.getD 1 0 ∧
      size (construct tb rs) = (construct tb rs).offset.getD 1 0) := by
  have hempty : ∀ (B : HTB) (i : ℕ), B.tree.maxIns < i →
      i < (update_structure B).xmatrix.length →
      (update_structure B).xmatrix.getD i [] = [] := by
    intro B i hmax hi
    have hi2 : i < (needLevel B B.tree.maxIns).bases.length := by
      rw [update_structure_xmatrix_length, update_structure_bases] at hi
      exact hi
    rw [update_structure_xmatrix_getD B hi2, set_activ1, if_pos hmax]
  refine ⟨fun B => update_structure_xmatrix_length B, hempty, ?_⟩
  intro tb rs
  have hmax0 : (initialize_class tb rs).tree.maxIns = 0 := rfl
  have hlen3 : (needLevel (initialize_class tb rs)
      (initialize_class tb rs).tree.maxIns).bases.length = 3 := by
    rw [needLevel_bases_length, hmax0]
    rfl
  have hbl : (construct tb rs).bases.length = 3 := by
    rw [construct, update_structure_bases]
    exact hlen3
  have hxl : (construct tb rs).xmatrix.length = 3 := by
    rw [construct, update_structure_xmatrix_length, update_structure_bases]
    exact hlen3
  have hx1 : (construct tb rs).xmatrix.getD 1 [] = [] := by
    rw [construct]
    exact hempty _ 1 (by rw [hmax0]; omega) (by rw [← construct, hxl]; omega)
  have hx2 : (construct tb rs).xmatrix.getD 2 [] = [] := by
    rw [construct]
    exact hempty _ 2 (by rw [hmax0]; omega) (by rw [← construct, hxl]; omega)
  have hoff : (construct tb rs).offset = offsetsOf (construct tb rs).xmatrix := by
    rw [construct, update_structure_offset]
  have ho2 : (construct tb rs).offset.getD 2 0 = (construct tb rs).offset.getD 1 0 := by
    rw [hoff, offsetsOf]
    have := offsetsFrom_getD_succ 0 (construct tb rs).xmatrix (i := 1) (by omega)
    rw [this, hx1]
    rfl
  have ho3 : (construct tb rs).offset.getD 3 0 = (construct tb rs).offset.getD 1 0 := by
    rw [hoff, offsetsOf]
    have h3 := offsetsFrom_getD_succ 0 (construct tb rs).xmatrix (i := 2) (by omega)
    rw [h3, hx2]
    rw [← offsetsOf, ← hoff, ho2]
    rfl
  refine ⟨hbl, hxl, hx1, hx2, ho2, ho3, ?_⟩
  rw [size, getLastD_eq_getD_pred]
  have hol : (construct tb rs).offset.length = 4 := by
    rw [hoff, offsetsOf, offsetsFrom_length, hxl]
  rw [hol]
  exact ho3

/-- Witness for C9 at the concrete example basis and refinement step. -/
theorem C9_witness :
    (update_structure exFrontEmpty).xmatrix.length
      = (update_structure exFrontEmpty).bases.length ∧
    (update_structure exFrontEmpty).xmatrix.getD 1 [] = [] ∧
    (construct tbA rsA).bases.length = 3 ∧
    size (construct tbA rsA) = (construct tbA rsA).offset.getD 1 0 :=
  ⟨C9_empty_tail_levels.1 exFrontEmpty,
   C9_empty_tail_levels.2.1 exFrontEmpty 1 (by decide) (by decide),
   (C9_empty_tail_levels.2.2 tbA rsA).1,
   (C9_empty_tail_levels.2.2 tbA rsA).2.2.2.2.2.2⟩

/-- C10: `uniformRefine(numKnots, mul)` supports only `numKnots = 1`:
any other value fails the fatal assertion (modelled as `none`).  Under
that precondition (and the internal level-consistency assertion) it
deletes the coarsest stored basis, appends one dyadically refined clone
of the finest remaining basis, doubles every coordinate in the tree
(`multiplyByTwo`), and rebuilds the activation structure. -/
theorem C10_uniformRefine :
    (∀ (B : HTB) (nk mul : ℤ), nk ≠ 1 → uniformRefine B nk mul = none) ∧
    (∀ (B : HTB) (mul : ℤ), B.tree.maxIns < B.bases.length →
      uniformRefine B 1 mul
        = some (update_structure
            { B with bases := B.bases.drop 1 ++ [B.refineStep ((B.bases.drop 1).getLastD default)]
                     tree := B.tree.multiplyByTwo }) ∧
      B.tree.multiplyByTwo.boxes
        = B.tree.boxes.map (fun b =>
            (b.1.map (fun x => 2 * x), b.2.1.map (fun x => 2 * x), b.2.2)) ∧
      B.tree.multiplyByTwo.domUpp = B.tree.domUpp.map (fun x => 2 * x)) := by
  constructor
  · intro B nk mul h
    rw [uniformRefine, if_pos h]
  · intro B mul h
    refine ⟨?_, rfl, rfl⟩
    rw [uniformRefine, if_neg (by omega), if_neg (by omega)]

/-- Witness for C10: `numKnots = 2` is rejected, `numKnots = 1`
performs the erase/append/multiplyByTwo/rebuild sequence on the fresh
example basis. -/
theorem C10_witness :
    uniformRefine exA 2 1 = none ∧
    (uniformRefine exA 1 1
        = some (update_structure
            { exA with bases := exA.bases.drop 1 ++ [exA.refineStep ((exA.bases.drop 1).getLastD default)]
                       tree := exA.tree.multiplyByTwo }) ∧
      exA.tree.multiplyByTwo.boxes
        = exA.tree.boxes.map (fun b =>
            (b.1.map (fun x => 2 * x), b.2.1.map (fun x => 2 * x), b.2.2)) ∧
      exA.tree.multiplyByTwo.domUpp = exA.tree.domUpp.map (fun x => 2 * x)) :=
  ⟨C10_uniformRefine.1 exA 2 1 (by decide),
   C10_uniformRefine.2 exA 1 (by decide)⟩
